import Mathlib

/-!
# Verification of the dokku reconciliation module (`src/dokku/dokku.go`)

The Go code is embedded shallowly:

* a Go `string` is a Lean `String` (the sequence of its runes);
* a Go `map[string]T` is an association list, whose order is the order in which a
  `range` loop enumerates the map;
* a `[]string` that may be `nil` is an `Option (List String)`;
* the remote command client is a deterministic function of the commands already
  issued on the session and of the command being run; every operation threads the
  list of commands issued so far, so the commands an operation issues can be read
  off its result;
* a run-time panic (index out of range) is the outcome `Outcome.panic`.
-/

namespace Dokku

/-! ## Go runtime values -/

/-- A Go `error` value: the text returned by `Error()` and an identity that tells
apart two errors with the same text. -/
structure GoError where
  message : String
  ident : Nat
deriving DecidableEq, Repr

/-- The method `err.Error()`. -/
def GoError.Error (e : GoError) : String := e.message

/-- Result of running Go code that may panic. -/
inductive Outcome (α : Type) where
  | done (a : α) : Outcome α
  | panic : Outcome α
deriving DecidableEq, Repr

/-- A Go map with string keys, as the list of its entries in enumeration order. -/
abbrev GoMap (β : Type) := List (String × β)

/-- The lookup `v, ok := m[k]`. -/
def GoMap.get {β : Type} (m : GoMap β) (k : String) : Option β :=
  match m with
  | [] => none
  | (k', v) :: rest => if k' = k then some v else GoMap.get rest k

/-- The assignment `m[k] = v`. -/
def GoMap.set {β : Type} (m : GoMap β) (k : String) (v : β) : GoMap β :=
  match m with
  | [] => [(k, v)]
  | (k', v') :: rest => if k' = k then (k', v) :: rest else (k', v') :: GoMap.set rest k v

/-- The keys of a map, in enumeration order. -/
def GoMap.keys {β : Type} (m : GoMap β) : List String := m.map Prod.fst

/-- Go's builtin `len` on a string: the number of bytes. -/
def len (s : String) : Nat := s.utf8ByteSize

/-- The elements of a possibly nil slice. -/
def elems (s : Option (List String)) : List String := s.getD []

/-! ## The functions of package `strings` used by the source -/

namespace strings

/-- Go's `unicode.IsSpace`: the runes with the White_Space property. -/
def isSpace (c : Char) : Bool :=
  let n := c.toNat
  (0x09 ≤ n && n ≤ 0x0d) || n == 0x20 || n == 0x85 || n == 0xA0 || n == 0x1680 ||
    (0x2000 ≤ n && n ≤ 0x200a) || n == 0x2028 || n == 0x2029 || n == 0x202f ||
    n == 0x205f || n == 0x3000

/-- Go's `strings.TrimSpace`: leading and trailing white space removed. -/
def TrimSpace (s : String) : String :=
  ⟨((s.data.dropWhile isSpace).reverse.dropWhile isSpace).reverse⟩

/-- Splitting a rune list at every occurrence of `sep`. -/
def splitRunes (sep : Char) : List Char → List (List Char)
  | [] => [[]]
  | c :: cs =>
    if c = sep then [] :: splitRunes sep cs
    else
      match splitRunes sep cs with
      | [] => [[c]]
      | p :: ps => (c :: p) :: ps

/-- Go's `strings.Split(s, sep)` for a separator of one rune, which is what every
call in the source passes (a newline, a colon or a space): the pieces of `s`
between the occurrences of `sep`, one more than there are occurrences. -/
def Split (s : String) (sep : Char) : List String :=
  (splitRunes sep s.data).map String.mk

/-- Go's `strings.Join(elems, sep)`. -/
def Join (elems : List String) (sep : String) : String := sep.intercalate elems

end strings

/-! ## The data model -/

/-- The struct `DokkuApp`. A nil `ConfigVars` map is the empty map and a nil `Domains`
slice is `none`. -/
structure DokkuApp where
  Id : String
  Name : String
  Locked : Bool
  ConfigVars : GoMap String
  Domains : Option (List String)
deriving DecidableEq, Repr

/-- The attributes of the resource that the source reads by name. -/
inductive Attr where
  | name
  | config_vars
  | domains
deriving DecidableEq, Repr

/-- The part of `schema.ResourceData` that the source reads: for each attribute the
value before the change and the value after it. `domainsOld` and `domainsNew` are the
listings `Set.List()` of the two sets. -/
structure ResourceData where
  nameOld : String
  nameNew : String
  configVarsOld : GoMap String
  configVarsNew : GoMap String
  domainsOld : List String
  domainsNew : List String
deriving DecidableEq, Repr

/-- Two maps hold the same entries, whatever their enumeration order. -/
def GoMap.equal (a b : GoMap String) : Bool :=
  (a.keys ++ b.keys).all (fun k => a.get k == b.get k)

/-- Two listings hold the same set of strings. -/
def setEqual (a b : List String) : Bool :=
  a.all (fun x => b.contains x) && b.all (fun x => a.contains x)

/-- The method `d.HasChange(key)`: the old and the new value of the attribute differ. -/
def ResourceData.HasChange (d : ResourceData) : Attr → Bool
  | .name => d.nameOld != d.nameNew
  | .config_vars => !(GoMap.equal d.configVarsOld d.configVarsNew)
  | .domains => !(setEqual d.domainsOld d.domainsNew)

/-- The call `d.GetOk("config_vars")`: the value, and whether it is set to a non-zero
value (for a map: a non-empty one). -/
def ResourceData.GetOk_config_vars (d : ResourceData) : GoMap String × Bool :=
  (d.configVarsNew, !d.configVarsNew.isEmpty)

/-- The helper functions of the repository that `dokkuAppUpdate` calls and that are
not part of the source file under study; the operations take them as a parameter. -/
structure Helpers where
  mapOfInterfacesToMapOfStrings : GoMap String → GoMap String
  interfaceSliceToStrSlice : List String → List String
  calculateMissingKeys : GoMap String → GoMap String → List String
  calculateMissingStrings : List String → List String → List String

/-- Modelled from the spec: the helpers `mapOfInterfacesToMapOfStrings`,
`interfaceSliceToStrSlice`, `calculateMissingKeys` and `calculateMissingStrings` are
missing from the source. The two conversions only change the static type of the
values, and the two others are the set difference that the spec names as the only
algorithm ("no algorithm beyond set-difference"): the keys, or strings, of the second
argument that the first one lacks. -/
def specHelpers : Helpers where
  mapOfInterfacesToMapOfStrings := fun m => m
  interfaceSliceToStrSlice := fun l => l
  calculateMissingKeys := fun newer older =>
    older.keys.filter (fun k => (newer.get k).isNone)
  calculateMissingStrings := fun newer older =>
    older.filter (fun x => !newer.contains x)

/-! ## The remote command client -/

/-- The remote command client `*goph.Client`: given the commands already issued on
the session and the command to run, the raw output and the error (`none` is `nil`). -/
abbrev Client := List String → String → String × Option GoError

/-- The call `client.Run(cmd)`: the output, the error, and the commands issued so far
with `cmd` added. -/
def Client.Run (client : Client) (issued : List String) (cmd : String) :
    String × Option GoError × List String :=
  ((client issued cmd).1, (client issued cmd).2, issued ++ [cmd])

/-! ## The functions of `dokku.go` -/

/-- The method `managedConfigVars`. -/
def managedConfigVars (app : DokkuApp) (d : ResourceData) : GoMap String :=
  let tfConfigKeyLookup : GoMap Unit :=
    match d.GetOk_config_vars with
    | (m, true) => m.foldl (fun lookup kv => lookup.set kv.1 ()) []
    | (_, false) => []
  app.ConfigVars.foldl
    (fun tfConfigVars kv =>
      match tfConfigKeyLookup.get kv.1 with
      | some _ => tfConfigVars.set kv.1 kv.2
      | none => tfConfigVars)
    []

/-- The method `configVarsStr`. -/
def configVarsStr (app : DokkuApp) : String :=
  app.ConfigVars.foldl
    (fun str kv =>
      let str := if len str > 0 then str ++ " " else str
      str ++ kv.1 ++ "=" ++ kv.2)
    ""

/-- The loop of `readAppConfig` over the lines after the first. -/
def readAppConfigLoop : List String → GoMap String → Outcome (GoMap String)
  | [], config => .done config
  | kp :: rest, config =>
    let kp := strings.TrimSpace kp
    if len kp > 0 then
      match strings.Split kp ':' with
      | configKey :: part1 :: _ =>
        readAppConfigLoop rest (config.set configKey (strings.TrimSpace part1))
      | _ => .panic
    else readAppConfigLoop rest config

/-- The function `readAppConfig`. The error of the command is dropped, as in the
source. -/
def readAppConfig (appName : String) (sshClient : Client) (issued : List String) :
    Outcome (GoMap String) × List String :=
  match sshClient.Run issued ("config:show " ++ appName) with
  | (configOutput, _, issued1) =>
    match strings.Split configOutput '\n' with
    | [] => (.panic, issued1)
    | _ :: keyPairs => (readAppConfigLoop keyPairs [], issued1)

/-- The loop of `readAppDomains` over the lines after the first. -/
def readAppDomainsLoop : List String → Outcome (Option (List String) × Option GoError)
  | [] => .done (none, none)
  | line :: rest =>
    match strings.Split line ':' with
    | [] => .panic
    | part0 :: more =>
      let key := strings.TrimSpace part0
      if key = "Domains app vhosts" then
        match more with
        | [] => .panic
        | part1 :: _ =>
          let domainList := strings.TrimSpace part1
          if domainList = "" then .done (some [], none)
          else .done (some (strings.Split domainList ' '), none)
      else readAppDomainsLoop rest

/-- The function `readAppDomains`. -/
def readAppDomains (appName : String) (client : Client) (issued : List String) :
    Outcome (Option (List String) × Option GoError) × List String :=
  match client.Run issued ("domains:report " ++ appName) with
  | (_, some err, issued1) => (.done (none, some err), issued1)
  | (domainsOutput, none, issued1) =>
    match strings.Split domainsOutput '\n' with
    | [] => (.panic, issued1)
    | _ :: domainLines => (readAppDomainsLoop domainLines, issued1)

/-- The function `dokkuAppRetrieve`. -/
def dokkuAppRetrieve (appName : String) (client : Client) (issued : List String) :
    Outcome (Option DokkuApp × Option GoError) × List String :=
  match client.Run issued ("apps:exists " ++ appName) with
  | (_, err, issued1) =>
    let app : DokkuApp :=
      { Id := appName, Name := appName, Locked := false, ConfigVars := [], Domains := none }
    match err with
    | some e =>
      if e.Error = "Process exited with status 20" then
        (.done (some { app with Id := "" }, none), issued1)
      else (.done (none, some e), issued1)
    | none =>
      match readAppConfig appName client issued1 with
      | (.panic, issued2) => (.panic, issued2)
      | (.done configVars, issued2) =>
        match readAppDomains appName client issued2 with
        | (.panic, issued3) => (.panic, issued3)
        | (.done (_, some e), issued3) => (.done (none, some e), issued3)
        | (.done (domains, none), issued3) =>
          (.done (some { app with ConfigVars := configVars, Domains := domains }, none), issued3)

/-- The function `dokkuAppConfigVarsSet`. -/
def dokkuAppConfigVarsSet (app : DokkuApp) (client : Client) (issued : List String) :
    Option GoError × List String :=
  let configVarStr := configVarsStr app
  if len configVarStr = 0 then (none, issued)
  else
    match client.Run issued ("config:set " ++ app.Name ++ " " ++ configVarStr) with
    | (_, err, issued1) => (err, issued1)

/-- The function `dokkuAppConfigVarsUnset`. The parameter `app` is not used by the
source. -/
def dokkuAppConfigVarsUnset (_app : DokkuApp) (varsToUnset : List String) (client : Client)
    (issued : List String) : Option GoError × List String :=
  if varsToUnset.length = 0 then (none, issued)
  else
    match client.Run issued ("config:unset " ++ strings.Join varsToUnset " ") with
    | (_, err, issued1) => (err, issued1)

/-- The function `dokkuAppDomainsAdd`. -/
def dokkuAppDomainsAdd (app : DokkuApp) (client : Client) (issued : List String) :
    Option GoError × List String :=
  let domainStr := strings.Join (elems app.Domains) " "
  match client.Run issued ("domains:set " ++ app.Name ++ " " ++ domainStr) with
  | (_, err, issued1) => (err, issued1)

/-- The function `dokkuAppCreate`. -/
def dokkuAppCreate (app : DokkuApp) (client : Client) (issued : List String) :
    Option GoError × List String :=
  match client.Run issued ("apps:create " ++ app.Name) with
  | (_, some err, issued1) => (some err, issued1)
  | (_, none, issued1) =>
    match dokkuAppConfigVarsSet app client issued1 with
    | (some err, issued2) => (some err, issued2)
    | (none, issued2) =>
      match dokkuAppDomainsAdd app client issued2 with
      | (some err, issued3) => (some err, issued3)
      | (none, issued3) => (none, issued3)

/-- The block `if d.HasChange("name")` of `dokkuAppUpdate`. -/
def updateName (d : ResourceData) (client : Client) (issued : List String) :
    Option GoError × List String :=
  if d.HasChange .name then
    match client.Run issued ("apps:rename " ++ d.nameOld ++ " " ++ d.nameNew) with
    | (_, err, issued1) => (err, issued1)
  else (none, issued)

/-- The block `if d.HasChange("config_vars")` of `dokkuAppUpdate`. The two slices
are made with `make([]string, len(newConfigVar))`, that is with one empty string per
entry, and the loop appends to them. The result of `dokkuAppConfigVarsUnset` is
dropped, as in the source. -/
def updateConfigVars (h : Helpers) (app : DokkuApp) (d : ResourceData) (appName : String)
    (client : Client) (issued : List String) : Option GoError × List String :=
  if d.HasChange .config_vars then
    let oldConfigVars := h.mapOfInterfacesToMapOfStrings d.configVarsOld
    let newConfigVar := h.mapOfInterfacesToMapOfStrings d.configVarsNew
    let keysToDelete := h.calculateMissingKeys newConfigVar oldConfigVars
    match dokkuAppConfigVarsUnset app keysToDelete client issued with
    | (_, issued1) =>
      let upsertParts :=
        newConfigVar.foldl (fun parts kv => parts ++ [kv.1 ++ "=" ++ kv.2])
          (List.replicate newConfigVar.length "")
      match client.Run issued1
          ("config:set " ++ appName ++ " " ++ strings.Join upsertParts " ") with
      | (_, err, issued2) => (err, issued2)
  else (none, issued)

/-- The block `if d.HasChange("domains")` of `dokkuAppUpdate`. -/
def updateDomains (h : Helpers) (d : ResourceData) (appName : String) (client : Client)
    (issued : List String) : Option GoError × List String :=
  if d.HasChange .domains then
    let oldDomains := h.interfaceSliceToStrSlice d.domainsOld
    let newDomains := h.interfaceSliceToStrSlice d.domainsNew
    let domainsToRemove := h.calculateMissingStrings newDomains oldDomains
    match client.Run issued
        ("domains:remove " ++ appName ++ " " ++ strings.Join domainsToRemove " ") with
    | (_, some err, issued1) => (some err, issued1)
    | (_, none, issued1) =>
      match client.Run issued1
          ("domains:add " ++ appName ++ " " ++ strings.Join newDomains " ") with
      | (_, err, issued2) => (err, issued2)
  else (none, issued)

/-- The function `dokkuAppUpdate`: the three blocks in order, returning at the first
error a block returns. -/
def dokkuAppUpdate (h : Helpers) (app : DokkuApp) (d : ResourceData) (client : Client)
    (issued : List String) : Option GoError × List String :=
  match updateName d client issued with
  | (some err, issued1) => (some err, issued1)
  | (none, issued1) =>
    let appName := d.nameNew
    match updateConfigVars h app d appName client issued1 with
    | (some err, issued2) => (some err, issued2)
    | (none, issued2) =>
      match updateDomains h d appName client issued2 with
      | (some err, issued3) => (some err, issued3)
      | (none, issued3) => (none, issued3)

/-! ## Definitions that follow the words of the specification -/

/-- Running the commands of a list in order on the client and stopping at the first
one that fails: the error of that command (or `none`), and the commands issued. -/
def runUntilFailure (client : Client) (issued : List String) :
    List String → Option GoError × List String
  | [] => (none, issued)
  | cmd :: rest =>
    match client.Run issued cmd with
    | (_, some err, issued1) => (some err, issued1)
    | (_, none, issued1) => runUntilFailure client issued1 rest

/-- The error with which the command at position `i` of `cmds` ends when the
commands before it have been issued after `issued`. -/
def errorAt (client : Client) (issued cmds : List String) (i : Nat) : Option GoError :=
  (client (issued ++ cmds.take i) (cmds.getD i "")).2

/-- The command sequence of a creation, as the specification lists it. -/
def createCommands (app : DokkuApp) : List String :=
  ["apps:create " ++ app.Name] ++
    (if app.ConfigVars = [] then []
     else ["config:set " ++ app.Name ++ " " ++
        " ".intercalate (app.ConfigVars.map (fun kv => kv.1 ++ "=" ++ kv.2))]) ++
    ["domains:set " ++ app.Name ++ " " ++ " ".intercalate (elems app.Domains)]

/-- The text of a line before its first colon; the whole line when it has no colon. -/
def beforeColon (line : String) : String :=
  ⟨line.data.takeWhile (fun c => c != ':')⟩

/-- The text of a line between its first colon and its second colon, or the end of
the line when it has one colon only; empty when it has no colon. -/
def betweenColons (line : String) : String :=
  ⟨((line.data.dropWhile (fun c => c != ':')).drop 1).takeWhile (fun c => c != ':')⟩

/-- The `config:show` rendering of a map of config variables, as the specification
describes it: a header line, then one line `<key>:<spaces><value>` per entry, with
`pad` spaces. -/
def renderConfig (header : String) (pad : Nat) (vars : GoMap String) : String :=
  "\n".intercalate
    (header :: vars.map (fun kv => kv.1 ++ ":" ++ String.mk (List.replicate pad ' ') ++ kv.2))

/-- The key of the report line that lists the domains of the app. -/
def domainsKey : String := "Domains app vhosts"

/-- A rune list that is not empty and neither starts nor ends with white space. -/
def Trimmed (l : List Char) : Prop :=
  ∃ c t t' c', l = c :: t ∧ l = t' ++ [c'] ∧ strings.isSpace c = false ∧
    strings.isSpace c' = false

/-- The conditions under which the rendering of an entry is read back in full: the key
is not empty and has no white space and no colon, the value has no newline, no colon
and no white space at either end. -/
def ReadableEntry (kv : String × String) : Prop :=
  kv.1 ≠ "" ∧ (∀ c ∈ kv.1.data, strings.isSpace c = false ∧ c ≠ ':') ∧
    (∀ c ∈ kv.2.data, c ≠ '\n' ∧ c ≠ ':') ∧ (kv.2.data = [] ∨ Trimmed kv.2.data)

/-! ## Sample inputs -/

/-- A client on which every command succeeds with an empty output. -/
def okClient : Client := fun _ _ => ("", none)

/-- The error of a remote command that exits with status 1. -/
def exitStatus1 : GoError := { message := "Process exited with status 1", ident := 1 }

/-- The error of `apps:exists` for an app that does not exist. -/
def exitStatus20 : GoError := { message := "Process exited with status 20", ident := 20 }

/-- A client on which every command fails with `e`. -/
def failingClient (e : GoError) : Client := fun _ _ => ("", some e)

/-- A client on which `config:unset` commands fail and every other command succeeds. -/
def unsetFailingClient : Client := fun _ cmd =>
  if "config:unset".data.isPrefixOf cmd.data then ("", some exitStatus1) else ("", none)

/-- A client on which `domains:set` commands fail and every other command succeeds. -/
def domainsFailingClient : Client := fun _ cmd =>
  if "domains:set".data.isPrefixOf cmd.data then ("", some exitStatus1) else ("", none)

/-- An app named `web` with one config variable and two domains. -/
def webApp : DokkuApp :=
  { Id := "web", Name := "web", Locked := false, ConfigVars := [("A", "1")],
    Domains := some ["a.com", "b.com"] }

/-- A resource whose config variable `A` is removed and nothing else changes. -/
def removeVarData : ResourceData :=
  { nameOld := "web", nameNew := "web", configVarsOld := [("A", "1")], configVarsNew := [],
    domainsOld := ["a.com"], domainsNew := ["a.com"] }

/-- A resource whose config variable `A` is added and nothing else changes. -/
def addVarData : ResourceData :=
  { nameOld := "web", nameNew := "web", configVarsOld := [], configVarsNew := [("A", "1")],
    domainsOld := ["a.com"], domainsNew := ["a.com"] }

/-- A resource without any change. -/
def unchangedData : ResourceData :=
  { nameOld := "web", nameNew := "web", configVarsOld := [("A", "1")],
    configVarsNew := [("A", "1")], domainsOld := ["a.com"], domainsNew := ["a.com"] }

/-! ## Auxiliary facts -/

theorem len_eq_zero_iff (s : String) : len s = 0 ↔ s = "" := by
  obtain ⟨l⟩ := s
  cases l with
  | nil => exact ⟨fun _ => rfl, fun _ => rfl⟩
  | cons c cs =>
    constructor
    · intro h
      have h1 : len ⟨c :: cs⟩ = len ⟨cs⟩ + c.utf8Size := by
        simp [len, String.utf8ByteSize, String.utf8ByteSize.go]
      have h2 := Char.utf8Size_pos c
      omega
    · intro h
      exact absurd (congrArg String.data h) (by simp)

theorem runUntilFailure_none (client : Client) (cmds : List String) :
    ∀ issued, (runUntilFailure client issued cmds).1 = none →
      (runUntilFailure client issued cmds).2 = issued ++ cmds ∧
      ∀ i, i < cmds.length → errorAt client issued cmds i = none := by
  induction cmds with
  | nil => intro issued _; simp [runUntilFailure]
  | cons c cs ih =>
    intro issued h
    unfold runUntilFailure at h ⊢
    simp only [Client.Run] at h ⊢
    cases hc : (client issued c).2 with
    | some e => rw [hc] at h; simp at h
    | none =>
      rw [hc] at h
      simp only at h ⊢
      obtain ⟨h1, h2⟩ := ih (issued ++ [c]) h
      refine ⟨by simp [h1], ?_⟩
      intro i hi
      cases i with
      | zero => simpa [errorAt] using hc
      | succ j =>
        have := h2 j (by simpa using hi)
        simpa [errorAt] using this

theorem runUntilFailure_some (client : Client) (cmds : List String) :
    ∀ issued e, (runUntilFailure client issued cmds).1 = some e →
      ∃ i, i < cmds.length ∧
        (runUntilFailure client issued cmds).2 = issued ++ cmds.take (i + 1) ∧
        errorAt client issued cmds i = some e ∧
        ∀ j, j < i → errorAt client issued cmds j = none := by
  induction cmds with
  | nil => intro issued e h; simp [runUntilFailure] at h
  | cons c cs ih =>
    intro issued e h
    unfold runUntilFailure at h ⊢
    simp only [Client.Run] at h ⊢
    cases hc : (client issued c).2 with
    | some e1 =>
      rw [hc] at h
      simp only [Option.some.injEq] at h
      subst h
      exact ⟨0, by simp, by simp, by simpa [errorAt] using hc, by simp⟩
    | none =>
      rw [hc] at h
      simp only at h ⊢
      obtain ⟨i, hi, h1, h2, h3⟩ := ih (issued ++ [c]) e h
      refine ⟨i + 1, by simpa using hi, by simp [h1], by simpa [errorAt] using h2, ?_⟩
      intro j hj
      cases j with
      | zero => simpa [errorAt] using hc
      | succ k =>
        have := h3 k (by omega)
        simpa [errorAt] using this

theorem ne_empty_of_eq_sign (a b c : String) : a ++ b ++ "=" ++ c ≠ "" := by
  intro h
  have := congrArg String.length h
  simp only [String.length_append] at this
  have h1 : "=".length = 1 := by decide
  have h2 : "".length = 0 := by decide
  omega

theorem configVarsStr_go (l : GoMap String) :
    ∀ acc : String, acc ≠ "" →
      l.foldl
        (fun str kv =>
          (if len str > 0 then str ++ " " else str) ++ kv.1 ++ "=" ++ kv.2) acc =
      String.intercalate.go acc " " (l.map (fun kv => kv.1 ++ "=" ++ kv.2)) := by
  induction l with
  | nil => intro acc _; rfl
  | cons kv rest ih =>
    intro acc hacc
    have hpos : len acc > 0 :=
      Nat.pos_of_ne_zero (fun h => hacc ((len_eq_zero_iff acc).1 h))
    simp only [List.foldl_cons, List.map_cons, String.intercalate.go, if_pos hpos]
    rw [ih _ (ne_empty_of_eq_sign _ _ _)]
    simp [String.append_assoc]

theorem configVarsStr_eq (app : DokkuApp) :
    configVarsStr app = " ".intercalate (app.ConfigVars.map (fun kv => kv.1 ++ "=" ++ kv.2)) := by
  unfold configVarsStr
  cases h : app.ConfigVars with
  | nil => rfl
  | cons kv rest =>
    have h0 : ¬ len "" > 0 := by decide
    simp only [List.foldl_cons, List.map_cons, String.intercalate, if_neg h0]
    have := configVarsStr_go rest ("" ++ kv.1 ++ "=" ++ kv.2) (ne_empty_of_eq_sign _ _ _)
    simp only [gt_iff_lt] at this ⊢
    rw [this]
    simp

theorem configVarsStr_fold_ne_empty (l : GoMap String) :
    ∀ acc : String, acc ≠ "" →
      l.foldl
        (fun str kv =>
          (if len str > 0 then str ++ " " else str) ++ kv.1 ++ "=" ++ kv.2) acc ≠ "" := by
  induction l with
  | nil => intro acc h; exact h
  | cons kv rest ih =>
    intro acc _
    simp only [List.foldl_cons]
    exact ih _ (ne_empty_of_eq_sign _ _ _)

theorem configVarsStr_empty_iff (app : DokkuApp) :
    len (configVarsStr app) = 0 ↔ app.ConfigVars = [] := by
  rw [len_eq_zero_iff]
  unfold configVarsStr
  cases h : app.ConfigVars with
  | nil => simp
  | cons kv rest =>
    simp only [List.foldl_cons]
    have := configVarsStr_fold_ne_empty rest _ (ne_empty_of_eq_sign
      (if len "" > 0 then "" ++ " " else "") kv.1 kv.2)
    exact ⟨fun h1 => absurd h1 this, fun h1 => by cases h1⟩

theorem dokkuAppCreate_eq_runUntilFailure (app : DokkuApp) (client : Client)
    (issued : List String) :
    dokkuAppCreate app client issued = runUntilFailure client issued (createCommands app) := by
  unfold dokkuAppCreate createCommands dokkuAppConfigVarsSet dokkuAppDomainsAdd
  simp only [configVarsStr_empty_iff, strings.Join, ← configVarsStr_eq]
  by_cases hc : app.ConfigVars = []
  · simp only [hc, if_true, List.append_nil, List.singleton_append, runUntilFailure, Client.Run]
    cases h1 : (client issued ("apps:create " ++ app.Name)).2 with
    | some e => simp
    | none =>
      simp only
      cases h2 : (client (issued ++ ["apps:create " ++ app.Name])
        ("domains:set " ++ app.Name ++ " " ++ " ".intercalate (elems app.Domains))).2 with
      | some e => simp
      | none => simp
  · simp only [hc, if_false, List.singleton_append, List.cons_append, List.nil_append,
      runUntilFailure, Client.Run]
    cases h1 : (client issued ("apps:create " ++ app.Name)).2 with
    | some e => simp
    | none =>
      simp only
      cases h2 : (client (issued ++ ["apps:create " ++ app.Name])
        ("config:set " ++ app.Name ++ " " ++ configVarsStr app)).2 with
      | some e => simp
      | none =>
        simp only
        cases h3 : (client (issued ++ ["apps:create " ++ app.Name] ++
          ["config:set " ++ app.Name ++ " " ++ configVarsStr app])
          ("domains:set " ++ app.Name ++ " " ++ " ".intercalate (elems app.Domains))).2 with
        | some e => simp
        | none => simp

theorem GoMap.get_set {β : Type} (m : GoMap β) (k : String) (v : β) (k' : String) :
    (m.set k v).get k' = if k = k' then some v else m.get k' := by
  induction m with
  | nil => simp [GoMap.set, GoMap.get]
  | cons kv rest ih =>
    obtain ⟨k0, v0⟩ := kv
    by_cases h0 : k0 = k
    · subst h0
      by_cases h1 : k0 = k' <;> simp [GoMap.set, GoMap.get, h1]
    · by_cases h1 : k0 = k'
      · subst h1
        have h2 : ¬ k = k0 := fun h => h0 h.symm
        simp [GoMap.set, GoMap.get, h0, h2]
      · simp [GoMap.set, GoMap.get, h0, h1, ih]

theorem GoMap.get_eq_none_iff {β : Type} (m : GoMap β) (k : String) :
    m.get k = none ↔ k ∉ m.keys := by
  induction m with
  | nil => simp [GoMap.get, GoMap.keys]
  | cons kv rest ih =>
    obtain ⟨k0, v0⟩ := kv
    by_cases h0 : k0 = k
    · simp [GoMap.get, GoMap.keys, h0]
    · have h1 : ¬ k = k0 := fun h => h0 h.symm
      simp only [GoMap.keys] at ih
      simp [GoMap.get, GoMap.keys, h0, h1, ih]

theorem GoMap.mem_keys_iff {β : Type} (m : GoMap β) (k : String) :
    k ∈ m.keys ↔ (m.get k).isSome = true := by
  have := GoMap.get_eq_none_iff m k
  cases h : m.get k with
  | none => simp [h] at this; simp [this]
  | some v => simp [h] at this; simp [this]

theorem GoMap.keys_set_nodup {β : Type} (m : GoMap β) (k : String) (v : β)
    (h : m.keys.Nodup) : (m.set k v).keys.Nodup := by
  induction m with
  | nil => simp [GoMap.set, GoMap.keys]
  | cons kv rest ih =>
    obtain ⟨k0, v0⟩ := kv
    simp only [GoMap.keys, List.map_cons, List.nodup_cons] at h
    by_cases h0 : k0 = k
    · simpa [GoMap.set, GoMap.keys, h0] using h
    · have hk : k0 ∉ (GoMap.set rest k v).keys := by
        rw [← GoMap.get_eq_none_iff, GoMap.get_set]
        have h1 : ¬ k = k0 := fun e => h0 e.symm
        simp only [h1, if_false]
        rw [GoMap.get_eq_none_iff]
        exact h.1
      have := ih h.2
      simp only [GoMap.keys] at this hk
      simp [GoMap.set, GoMap.keys, h0, this, hk]

theorem keyLookup_get (m : GoMap String) :
    ∀ (acc : GoMap Unit) (k : String),
      ((m.foldl (fun lookup kv => lookup.set kv.1 ()) acc).get k).isSome =
        (decide (k ∈ m.keys) || (acc.get k).isSome) := by
  induction m with
  | nil => intro acc k; simp [GoMap.keys]
  | cons kv rest ih =>
    intro acc k
    simp only [List.foldl_cons, ih, GoMap.get_set, GoMap.keys, List.map_cons, List.mem_cons]
    by_cases h : kv.1 = k
    · simp [h]
    · have h1 : ¬ k = kv.1 := fun e => h e.symm
      simp [h, h1]

theorem managedFold_get (lookup : GoMap Unit) (l : GoMap String) :
    ∀ (acc : GoMap String) (k : String), l.keys.Nodup →
      (l.foldl
        (fun tfConfigVars kv =>
          match lookup.get kv.1 with
          | some _ => tfConfigVars.set kv.1 kv.2
          | none => tfConfigVars) acc).get k =
      if (lookup.get k).isSome = true ∧ (l.get k).isSome = true then l.get k else acc.get k := by
  induction l with
  | nil => intro acc k _; simp [GoMap.get]
  | cons kv rest ih =>
    intro acc k hnd
    obtain ⟨k0, v0⟩ := kv
    simp only [GoMap.keys, List.map_cons, List.nodup_cons] at hnd
    simp only [List.foldl_cons]
    rw [ih _ k hnd.2]
    by_cases h0 : k0 = k
    · subst h0
      have hnone : GoMap.get rest k0 = none := (GoMap.get_eq_none_iff rest k0).2 hnd.1
      cases hl : lookup.get k0 with
      | none => simp [hnone, GoMap.get]
      | some u => simp [hnone, GoMap.get, GoMap.get_set]
    · cases hl : lookup.get k0 with
      | none => simp [GoMap.get, h0]
      | some u => simp [GoMap.get, h0, GoMap.get_set]

theorem managedFold_nodup (lookup : GoMap Unit) (l : GoMap String) :
    ∀ acc : GoMap String, acc.keys.Nodup →
      (l.foldl
        (fun tfConfigVars kv =>
          match lookup.get kv.1 with
          | some _ => tfConfigVars.set kv.1 kv.2
          | none => tfConfigVars) acc).keys.Nodup := by
  induction l with
  | nil => intro acc h; exact h
  | cons kv rest ih =>
    intro acc h
    simp only [List.foldl_cons]
    apply ih
    cases lookup.get kv.1 with
    | none => exact h
    | some u => exact GoMap.keys_set_nodup acc _ _ h

theorem managedConfigVars_get (app : DokkuApp) (d : ResourceData)
    (hmap : app.ConfigVars.keys.Nodup) (k : String) :
    (managedConfigVars app d).get k =
      if k ∈ d.configVarsNew.keys then app.ConfigVars.get k else none := by
  unfold managedConfigVars ResourceData.GetOk_config_vars
  cases hd : d.configVarsNew with
  | nil =>
    simp only [List.isEmpty_nil, Bool.not_true]
    rw [managedFold_get _ _ _ _ hmap]
    simp [GoMap.get, GoMap.keys]
  | cons e rest =>
    simp only [List.isEmpty_cons, Bool.not_false]
    rw [managedFold_get _ _ _ _ hmap, keyLookup_get]
    by_cases hk : k ∈ GoMap.keys (e :: rest)
    · cases hg : app.ConfigVars.get k <;> simp [hk, hg, GoMap.get]
    · simp [hk, GoMap.get]

/-! ### Splitting and joining -/

theorem splitRunes_eq_takeWhile (sep : Char) (l : List Char) :
    strings.splitRunes sep l =
      l.takeWhile (fun c => c != sep) ::
        (match l.dropWhile (fun c => c != sep) with
         | [] => []
         | _ :: r => strings.splitRunes sep r) := by
  induction l with
  | nil => rfl
  | cons c cs ih =>
    by_cases h : c = sep
    · subst h
      simp [strings.splitRunes, List.takeWhile, List.dropWhile]
    · have hb : (c != sep) = true := by simpa using h
      rw [strings.splitRunes, if_neg h, ih]
      simp [List.takeWhile, List.dropWhile, hb]

theorem splitRunes_of_not_mem (sep : Char) (l : List Char) (h : sep ∉ l) :
    strings.splitRunes sep l = [l] := by
  induction l with
  | nil => rfl
  | cons c cs ih =>
    simp only [List.mem_cons, not_or] at h
    have hc : ¬ c = sep := fun e => h.1 e.symm
    rw [strings.splitRunes, if_neg hc, ih h.2]

theorem splitRunes_append_sep (sep : Char) (a b : List Char) (h : sep ∉ a) :
    strings.splitRunes sep (a ++ sep :: b) = a :: strings.splitRunes sep b := by
  induction a with
  | nil => simp [strings.splitRunes]
  | cons c cs ih =>
    simp only [List.mem_cons, not_or] at h
    have hc : ¬ c = sep := fun e => h.1 e.symm
    rw [List.cons_append, strings.splitRunes, if_neg hc, ih h.2]

theorem dropWhile_ne_of_mem (sep : Char) (l : List Char) (h : sep ∈ l) :
    ∃ r, l.dropWhile (fun c => c != sep) = sep :: r := by
  induction l with
  | nil => cases h
  | cons c cs ih =>
    by_cases hc : c = sep
    · subst hc
      exact ⟨cs, by simp [List.dropWhile]⟩
    · have hb : (c != sep) = true := by simpa using hc
      have hmem : sep ∈ cs := by
        rcases List.mem_cons.1 h with e | e
        · exact absurd e.symm hc
        · exact e
      obtain ⟨r, hr⟩ := ih hmem
      exact ⟨r, by simp [List.dropWhile, hb, hr]⟩

theorem Split_colon_head (line : String) :
    ∃ more, strings.Split line ':' = beforeColon line :: more := by
  unfold strings.Split
  rw [splitRunes_eq_takeWhile]
  exact ⟨_, rfl⟩

theorem Split_colon_two (line : String) (h : ':' ∈ line.data) :
    ∃ more, strings.Split line ':' = beforeColon line :: betweenColons line :: more := by
  obtain ⟨r, hr⟩ := dropWhile_ne_of_mem ':' line.data h
  unfold strings.Split
  rw [splitRunes_eq_takeWhile, hr]
  simp only
  rw [splitRunes_eq_takeWhile]
  simp only [List.map_cons, beforeColon, betweenColons, hr, List.drop_succ_cons, List.drop_zero]
  exact ⟨_, rfl⟩

theorem intercalate_go_append (s : String) (l : List String) :
    ∀ x acc : String, String.intercalate.go (x ++ acc) s l = x ++ String.intercalate.go acc s l := by
  induction l with
  | nil => intro x acc; rfl
  | cons a rest ih =>
    intro x acc
    simp only [String.intercalate.go]
    rw [String.append_assoc, String.append_assoc, ih, String.append_assoc]

theorem intercalate_cons_cons (s a b : String) (l : List String) :
    s.intercalate (a :: b :: l) = a ++ s ++ s.intercalate (b :: l) := by
  simp only [String.intercalate, String.intercalate.go]
  rw [String.append_assoc, intercalate_go_append, intercalate_go_append, String.append_assoc]

theorem intercalate_singleton (s a : String) : s.intercalate [a] = a := rfl

theorem Split_intercalate (sep : Char) (ls : List String) (hne : ls ≠ [])
    (h : ∀ l ∈ ls, sep ∉ l.data) :
    strings.Split ((String.singleton sep).intercalate ls) sep = ls := by
  induction ls with
  | nil => exact absurd rfl hne
  | cons a rest ih =>
    cases rest with
    | nil =>
      rw [intercalate_singleton]
      unfold strings.Split
      rw [splitRunes_of_not_mem sep a.data (h a (by simp))]
      rfl
    | cons b l =>
      rw [intercalate_cons_cons]
      have ih1 := ih (by simp) (fun x hx => h x (List.mem_cons_of_mem _ hx))
      unfold strings.Split at ih1 ⊢
      have hd : (a ++ String.singleton sep ++ (String.singleton sep).intercalate (b :: l)).data =
          a.data ++ sep :: ((String.singleton sep).intercalate (b :: l)).data := by
        simp [String.data_append, String.singleton]
      rw [hd, splitRunes_append_sep sep _ _ (h a (by simp)), List.map_cons, ih1]

theorem splitRunes_ne_nil (sep : Char) (l : List Char) : strings.splitRunes sep l ≠ [] := by
  rw [splitRunes_eq_takeWhile]
  simp

theorem splitRunes_no_sep (sep : Char) (l : List Char) :
    ∀ p ∈ strings.splitRunes sep l, sep ∉ p := by
  induction l with
  | nil => intro p hp; simp [strings.splitRunes] at hp; simp [hp]
  | cons c cs ih =>
    intro p hp
    by_cases hc : c = sep
    · rw [strings.splitRunes, if_pos hc] at hp
      rcases List.mem_cons.1 hp with e | e
      · simp [e]
      · exact ih p e
    · rw [strings.splitRunes, if_neg hc] at hp
      cases hs : strings.splitRunes sep cs with
      | nil => exact absurd hs (splitRunes_ne_nil sep cs)
      | cons q qs =>
        rw [hs] at hp ih
        rcases List.mem_cons.1 hp with e | e
        · subst e
          have hq := ih q (by simp)
          simp only [List.mem_cons, not_or]
          exact ⟨fun e => hc e.symm, hq⟩
        · exact ih p (List.mem_cons_of_mem _ e)

theorem intercalate_splitRunes (sep : Char) (l : List Char) :
    (String.singleton sep).intercalate ((strings.splitRunes sep l).map String.mk) = ⟨l⟩ := by
  induction l with
  | nil => rfl
  | cons c cs ih =>
    cases hs : strings.splitRunes sep cs with
    | nil => exact absurd hs (splitRunes_ne_nil sep cs)
    | cons q qs =>
      rw [hs] at ih
      by_cases hc : c = sep
      · rw [strings.splitRunes, if_pos hc, hs, List.map_cons, List.map_cons,
          intercalate_cons_cons, ← List.map_cons, ih, hc]
        apply String.ext
        simp [String.data_append, String.singleton]
      · rw [strings.splitRunes, if_neg hc, hs]
        simp only [List.map_cons] at ih ⊢
        have e : String.mk (c :: q) = String.mk [c] ++ String.mk q := by
          apply String.ext
          simp [String.data_append]
        simp only [String.intercalate] at ih ⊢
        rw [e, intercalate_go_append, ih]
        apply String.ext
        simp [String.data_append]

theorem lines_cover (output : String) :
    ∃ (first : String) (lines : List String),
      (∀ l ∈ first :: lines, '\n' ∉ l.data) ∧ output = "\n".intercalate (first :: lines) := by
  cases hs : strings.splitRunes '\n' output.data with
  | nil => exact absurd hs (splitRunes_ne_nil _ _)
  | cons q qs =>
    refine ⟨String.mk q, qs.map String.mk, ?_, ?_⟩
    · intro l hl
      rw [← List.map_cons, List.mem_map] at hl
      obtain ⟨r, hr, rfl⟩ := hl
      exact splitRunes_no_sep '\n' output.data r (hs ▸ hr)
    · have h := intercalate_splitRunes '\n' output.data
      rw [hs] at h
      have hsing : String.singleton '\n' = "\n" := by decide
      rw [hsing] at h
      exact h.symm

theorem mem_intercalate (s : String) (c : Char) (ls : List String) :
    c ∈ (s.intercalate ls).data → c ∈ s.data ∨ ∃ l ∈ ls, c ∈ l.data := by
  induction ls with
  | nil => intro h; simp [String.intercalate] at h
  | cons a rest ih =>
    cases rest with
    | nil =>
      intro h
      rw [intercalate_singleton] at h
      exact Or.inr ⟨a, by simp, h⟩
    | cons b l =>
      intro h
      rw [intercalate_cons_cons] at h
      simp only [String.data_append, List.mem_append] at h
      rcases h with (h | h) | h
      · exact Or.inr ⟨a, by simp, h⟩
      · exact Or.inl h
      · rcases ih h with h1 | ⟨x, hx, hc⟩
        · exact Or.inl h1
        · exact Or.inr ⟨x, List.mem_cons_of_mem _ hx, hc⟩

/-! ### Trimming -/

theorem Trimmed_of_no_space (l : List Char) (hne : l ≠ [])
    (h : ∀ c ∈ l, strings.isSpace c = false) : Trimmed l := by
  cases l with
  | nil => exact absurd rfl hne
  | cons c t =>
    have hlast := (List.dropLast_append_getLast hne).symm
    exact ⟨c, t, _, _, rfl, hlast, h c (by simp), h _ (List.getLast_mem hne)⟩

theorem Trimmed_append (a b : List Char) (sep : Char) (ha : Trimmed a) (hb : Trimmed b) :
    Trimmed (a ++ sep :: b) := by
  obtain ⟨c, t, _, _, h1, _, h3, _⟩ := ha
  obtain ⟨_, _, t', c', _, k2, _, k4⟩ := hb
  refine ⟨c, t ++ sep :: b, a ++ sep :: t', c', ?_, ?_, h3, k4⟩
  · rw [h1]; rfl
  · conv_lhs => rw [k2]
    simp

theorem TrimSpace_of_Trimmed (s : String) (h : Trimmed s.data) : strings.TrimSpace s = s := by
  obtain ⟨c, t, t', c', h1, h2, h3, h4⟩ := h
  unfold strings.TrimSpace
  have e1 : s.data.dropWhile strings.isSpace = s.data := by
    rw [h1]; simp [List.dropWhile, h3]
  rw [e1]
  have e2 : s.data.reverse.dropWhile strings.isSpace = s.data.reverse := by
    rw [h2]; simp [List.dropWhile, h4]
  rw [e2, List.reverse_reverse]

theorem TrimSpace_space_append (s : String) :
    strings.TrimSpace (" " ++ s) = strings.TrimSpace s := by
  unfold strings.TrimSpace
  have h : strings.isSpace ' ' = true := by decide
  have e : (" " ++ s).data = ' ' :: s.data := by simp [String.data_append]
  rw [e, List.dropWhile_cons, if_pos h]

theorem Trimmed_intercalate (ds : List String) (hne : ds ≠ [])
    (h : ∀ d ∈ ds, d ≠ "" ∧ ∀ c ∈ d.data, strings.isSpace c = false ∧ c ≠ ':') :
    Trimmed (" ".intercalate ds).data := by
  have hd : ∀ d ∈ ds, Trimmed d.data := by
    intro d hdm
    refine Trimmed_of_no_space d.data ?_ (fun c hc => ((h d hdm).2 c hc).1)
    intro e
    exact (h d hdm).1 (String.ext e)
  clear h
  induction ds with
  | nil => exact absurd rfl hne
  | cons a rest ih =>
    cases rest with
    | nil => rw [intercalate_singleton]; exact hd a (by simp)
    | cons b l =>
      rw [intercalate_cons_cons]
      have ih1 := ih (by simp) (fun x hx => hd x (List.mem_cons_of_mem _ hx))
      have e : (a ++ " " ++ " ".intercalate (b :: l)).data =
          a.data ++ ' ' :: (" ".intercalate (b :: l)).data := by
        simp [String.data_append]
      rw [e]
      exact Trimmed_append _ _ _ (hd a (by simp)) ih1

/-! ### The loop of `readAppDomains` -/

theorem readAppDomainsLoop_skip (pre rest : List String)
    (h : ∀ l ∈ pre, strings.TrimSpace (beforeColon l) ≠ domainsKey) :
    readAppDomainsLoop (pre ++ rest) = readAppDomainsLoop rest := by
  induction pre with
  | nil => rfl
  | cons l pre ih =>
    obtain ⟨more, hm⟩ := Split_colon_head l
    have hl : ¬ strings.TrimSpace (beforeColon l) = "Domains app vhosts" := h l (by simp)
    rw [List.cons_append, readAppDomainsLoop, hm]
    simp only [if_neg hl]
    exact ih (fun x hx => h x (List.mem_cons_of_mem _ hx))

theorem readAppDomainsLoop_found (line : String) (post : List String)
    (hk : strings.TrimSpace (beforeColon line) = domainsKey) (hc : ':' ∈ line.data) :
    readAppDomainsLoop (line :: post) =
      .done (some (if strings.TrimSpace (betweenColons line) = "" then []
                   else strings.Split (strings.TrimSpace (betweenColons line)) ' '), none) := by
  obtain ⟨more, hm⟩ := Split_colon_two line hc
  have hl : strings.TrimSpace (beforeColon line) = "Domains app vhosts" := hk
  rw [readAppDomainsLoop, hm]
  simp only [if_pos hl]
  by_cases he : strings.TrimSpace (betweenColons line) = ""
  · simp [he]
  · simp [he]

theorem readAppDomains_of_lines (appName : String) (client : Client) (issued : List String)
    (first : String) (lines : List String)
    (hnl : ∀ l ∈ first :: lines, '\n' ∉ l.data)
    (hrun : client issued ("domains:report " ++ appName) =
      ("\n".intercalate (first :: lines), none)) :
    readAppDomains appName client issued =
      (readAppDomainsLoop lines, issued ++ ["domains:report " ++ appName]) := by
  have hs : strings.Split ("\n".intercalate (first :: lines)) '\n' = first :: lines :=
    Split_intercalate '\n' (first :: lines) (by simp) hnl
  simp only [readAppDomains, Client.Run, hrun, hs]

theorem beforeColon_append (a b : String) (ha : ':' ∉ a.data) :
    beforeColon (a ++ ":" ++ b) = a := by
  have e : (a ++ ":" ++ b).data = a.data ++ ':' :: b.data := by simp [String.data_append]
  unfold beforeColon
  rw [e, List.takeWhile_append_of_pos (fun c hc => by
    have : c ≠ ':' := fun h => ha (h ▸ hc)
    simpa using this)]
  simp [List.takeWhile]

theorem betweenColons_append (a b : String) (ha : ':' ∉ a.data) (hb : ':' ∉ b.data) :
    betweenColons (a ++ ":" ++ b) = b := by
  have e : (a ++ ":" ++ b).data = a.data ++ ':' :: b.data := by simp [String.data_append]
  unfold betweenColons
  rw [e, List.dropWhile_append_of_pos (fun c hc => by
    have : c ≠ ':' := fun h => ha (h ▸ hc)
    simpa using this)]
  have hb1 : ∀ c ∈ b.data, (c != ':') = true := by
    intro c hc
    have : c ≠ ':' := fun h => hb (h ▸ hc)
    simpa using this
  simp [List.dropWhile, List.takeWhile_eq_self_iff.2 hb1]

theorem readAppDomainsLoop_report_line (ds : List String)
    (h : ∀ d ∈ ds, d ≠ "" ∧ ∀ c ∈ d.data, strings.isSpace c = false ∧ c ≠ ':') :
    readAppDomainsLoop ["Domains app vhosts: " ++ " ".intercalate ds] =
      .done (some ds, none) := by
  have hline : "Domains app vhosts: " ++ " ".intercalate ds =
      "Domains app vhosts" ++ ":" ++ (" " ++ " ".intercalate ds) := by
    have : "Domains app vhosts: " = "Domains app vhosts" ++ ":" ++ " " := by decide
    rw [this]
    simp only [String.append_assoc]
  have hkey : ':' ∉ "Domains app vhosts".data := by decide
  have hJ : ':' ∉ (" " ++ " ".intercalate ds).data := by
    intro hmem
    simp only [String.data_append, List.mem_append] at hmem
    rcases hmem with hmem | hmem
    · exact absurd hmem (by decide)
    · rcases mem_intercalate _ _ _ hmem with h1 | ⟨d, hd, hc⟩
      · exact absurd h1 (by decide)
      · exact ((h d hd).2 _ hc).2 rfl
  rw [hline, readAppDomainsLoop_found _ _
    (by rw [beforeColon_append _ _ hkey]; decide)
    (by simp [String.data_append]),
    betweenColons_append _ _ hkey hJ, TrimSpace_space_append]
  cases ds with
  | nil =>
    have : strings.TrimSpace (" ".intercalate []) = "" := by decide
    simp [this]
  | cons a rest =>
    have ht := Trimmed_intercalate (a :: rest) (by simp) h
    rw [TrimSpace_of_Trimmed _ ht]
    have hne : " ".intercalate (a :: rest) ≠ "" := by
      intro e
      obtain ⟨c, t, _, _, h1, _⟩ := ht
      rw [e] at h1
      cases h1
    rw [if_neg hne]
    have hsplit := Split_intercalate ' ' (a :: rest) (by simp) (fun d hd hc => by
      have := ((h d hd).2 _ hc).1
      exact absurd this (by decide))
    have hsing : String.singleton ' ' = " " := by decide
    rw [hsing] at hsplit
    rw [hsplit]

/-! ### The loop of `readAppConfig` -/

theorem Trimmed_append_mid (a x b : List Char) (ha : Trimmed a) (hb : Trimmed b) :
    Trimmed (a ++ x ++ b) := by
  obtain ⟨c, t, _, _, h1, _, h3, _⟩ := ha
  obtain ⟨_, _, t', c', _, k2, _, k4⟩ := hb
  refine ⟨c, t ++ x ++ b, a ++ x ++ t', c', ?_, ?_, h3, k4⟩
  · rw [h1]; rfl
  · conv_lhs => rw [k2]
    simp

theorem dropWhile_spaces (n : Nat) (l : List Char) :
    (List.replicate n ' ' ++ l).dropWhile strings.isSpace = l.dropWhile strings.isSpace := by
  apply List.dropWhile_append_of_pos
  intro c hc
  rw [List.eq_of_mem_replicate hc]
  decide

theorem TrimSpace_spaces_append (n : Nat) (v : String) :
    strings.TrimSpace (String.mk (List.replicate n ' ') ++ v) = strings.TrimSpace v := by
  unfold strings.TrimSpace
  rw [String.data_append, dropWhile_spaces]

theorem TrimSpace_of_empty_or_Trimmed (v : String) (h : v.data = [] ∨ Trimmed v.data) :
    strings.TrimSpace v = v := by
  rcases h with h | h
  · have : v = "" := String.ext h
    rw [this]; decide
  · exact TrimSpace_of_Trimmed v h

theorem TrimSpace_config_line (pad : Nat) (kv : String × String) (h : ReadableEntry kv) :
    ∃ rest : String,
      strings.TrimSpace (kv.1 ++ ":" ++ String.mk (List.replicate pad ' ') ++ kv.2) =
        kv.1 ++ ":" ++ rest ∧
      ':' ∉ rest.data ∧ strings.TrimSpace rest = kv.2 := by
  obtain ⟨hne, hk, hv, hends⟩ := h
  have hkt : Trimmed kv.1.data :=
    Trimmed_of_no_space _ (fun e => hne (String.ext e)) (fun c hc => (hk c hc).1)
  rcases hends with hemp | htr
  · refine ⟨"", ?_, by decide, ?_⟩
    · have hv0 : kv.2 = "" := String.ext hemp
      obtain ⟨c, t, _, _, h1, _, h3, _⟩ := hkt
      unfold strings.TrimSpace
      apply String.ext
      have e : (kv.1 ++ ":" ++ String.mk (List.replicate pad ' ') ++ kv.2).data =
          kv.1.data ++ ':' :: List.replicate pad ' ' := by
        simp [String.data_append, hv0]
      have e1 : (kv.1.data ++ ':' :: List.replicate pad ' ').dropWhile strings.isSpace =
          kv.1.data ++ ':' :: List.replicate pad ' ' := by
        rw [h1]; simp [List.dropWhile, h3]
      have e2 : (kv.1.data ++ ':' :: List.replicate pad ' ').reverse =
          List.replicate pad ' ' ++ ':' :: kv.1.data.reverse := by
        simp [List.reverse_append, List.reverse_replicate]
      have hcolon : strings.isSpace ':' = false := by decide
      simp only [e, e1, e2, dropWhile_spaces, List.dropWhile_cons, hcolon]
      simp [String.data_append]
    · have hv0 : kv.2 = "" := String.ext hemp
      rw [hv0]
      decide
  · refine ⟨String.mk (List.replicate pad ' ') ++ kv.2, ?_, ?_, ?_⟩
    · have ht : Trimmed (kv.1 ++ ":" ++ String.mk (List.replicate pad ' ') ++ kv.2).data := by
        have e : (kv.1 ++ ":" ++ String.mk (List.replicate pad ' ') ++ kv.2).data =
            kv.1.data ++ (':' :: List.replicate pad ' ') ++ kv.2.data := by
          simp [String.data_append]
        rw [e]
        exact Trimmed_append_mid _ _ _ hkt htr
      rw [TrimSpace_of_Trimmed _ ht, String.append_assoc]
    · intro hmem
      simp only [String.data_append, List.mem_append] at hmem
      rcases hmem with hmem | hmem
      · have := List.eq_of_mem_replicate hmem
        exact absurd this (by decide)
      · exact (hv _ hmem).2 rfl
    · rw [TrimSpace_spaces_append, TrimSpace_of_Trimmed _ htr]

theorem GoMap.set_of_not_mem {β : Type} (m : GoMap β) (k : String) (v : β)
    (h : k ∉ m.keys) : m.set k v = m ++ [(k, v)] := by
  induction m with
  | nil => rfl
  | cons e rest ih =>
    obtain ⟨k0, v0⟩ := e
    simp only [GoMap.keys, List.map_cons, List.mem_cons, not_or] at h
    have h0 : ¬ k0 = k := fun e => h.1 e.symm
    simp only [GoMap.keys] at ih
    simp [GoMap.set, h0, ih h.2]

theorem Split_config_line (k rest : String) (hk : ':' ∉ k.data) (hrest : ':' ∉ rest.data) :
    strings.Split (k ++ ":" ++ rest) ':' = [k, rest] := by
  have e : (k ++ ":" ++ rest).data = k.data ++ ':' :: rest.data := by
    simp [String.data_append]
  unfold strings.Split
  rw [e, splitRunes_append_sep _ _ _ hk, splitRunes_of_not_mem _ _ hrest]
  rfl

theorem readAppConfigLoop_render (pad : Nat) (vars : GoMap String) :
    ∀ acc : GoMap String, (∀ kv ∈ vars, ReadableEntry kv) →
      (acc.keys ++ vars.keys).Nodup →
      readAppConfigLoop
        (vars.map (fun kv => kv.1 ++ ":" ++ String.mk (List.replicate pad ' ') ++ kv.2)) acc =
        .done (acc ++ vars) := by
  induction vars with
  | nil => intro acc _ _; simp [readAppConfigLoop]
  | cons kv rest ih =>
    intro acc hall hnd
    have hkv := hall kv (by simp)
    obtain ⟨r, h1, h2, h3⟩ := TrimSpace_config_line pad kv hkv
    have hkcolon : ':' ∉ kv.1.data := fun hm => (hkv.2.1 _ hm).2 rfl
    have hpos : len (kv.1 ++ ":" ++ r) > 0 := by
      apply Nat.pos_of_ne_zero
      intro h0
      have := congrArg String.data ((len_eq_zero_iff _).1 h0)
      simp [String.data_append] at this
    have hnot : kv.1 ∉ acc.keys := by
      intro hm
      have := List.disjoint_of_nodup_append hnd hm
      exact this (by simp [GoMap.keys])
    rw [List.map_cons, readAppConfigLoop]
    simp only [h1, if_pos hpos, Split_config_line _ _ hkcolon h2, h3]
    rw [GoMap.set_of_not_mem _ _ _ hnot, ih (acc ++ [(kv.1, kv.2)])
      (fun x hx => hall x (List.mem_cons_of_mem _ hx))
      (by simpa [GoMap.keys, List.append_assoc] using hnd)]
    simp

/-- Reading back a rendering: when the entries are readable, in particular when no value
contains a colon, `readAppConfig` returns exactly the rendered map. -/
theorem readAppConfig_roundtrip_without_colon (appName : String) (client : Client)
    (issued : List String) (header : String) (pad : Nat) (vars : GoMap String)
    (hheader : '\n' ∉ header.data) (hkeys : vars.keys.Nodup)
    (hvars : ∀ kv ∈ vars, ReadableEntry kv)
    (hrun : (client issued ("config:show " ++ appName)).1 = renderConfig header pad vars) :
    readAppConfig appName client issued =
      (.done vars, issued ++ ["config:show " ++ appName]) := by
  have hnl : ∀ l ∈ header ::
      vars.map (fun kv => kv.1 ++ ":" ++ String.mk (List.replicate pad ' ') ++ kv.2),
      '\n' ∉ l.data := by
    intro l hl
    rcases List.mem_cons.1 hl with rfl | hl
    · exact hheader
    · obtain ⟨kv, hkv, rfl⟩ := List.mem_map.1 hl
      obtain ⟨_, hk, hv, _⟩ := hvars kv hkv
      intro hmem
      simp only [String.data_append, List.mem_append] at hmem
      rcases hmem with ((hmem | hmem) | hmem) | hmem
      · exact absurd (hk _ hmem).1 (by decide)
      · exact absurd hmem (by decide)
      · exact absurd (List.eq_of_mem_replicate hmem) (by decide)
      · exact (hv _ hmem).1 rfl
  have hs := Split_intercalate '\n' _ (by simp) hnl
  have hsing : String.singleton '\n' = "\n" := by decide
  rw [hsing] at hs
  have hloop := readAppConfigLoop_render pad vars [] hvars (by simpa [GoMap.keys] using hkeys)
  simp only [readAppConfig, Client.Run, hrun, renderConfig, hs, hloop, List.nil_append]

/-! ### Changes of the resource data -/

theorem HasChange_false_of_same (d : ResourceData) (hname : d.nameOld = d.nameNew)
    (hvars : d.configVarsOld = d.configVarsNew) (hdomains : d.domainsOld = d.domainsNew) :
    d.HasChange .name = false ∧ d.HasChange .config_vars = false ∧
      d.HasChange .domains = false := by
  refine ⟨?_, ?_, ?_⟩
  · simp [ResourceData.HasChange, hname]
  · simp [ResourceData.HasChange, GoMap.equal, hvars]
  · simp [ResourceData.HasChange, setEqual, hdomains]

/-! ## The claims -/

/-- C1 at a failing input: the map with the single variable
`DATABASE_URL = postgres://db:5432/web` meets the conditions of the claim (the key has no
colon and no white space, the value has no newline and no white space at its ends), yet
from its rendering `readAppConfig` returns the value `postgres`, cut at the first colon
of the value, and not the full value. -/
theorem readAppConfig_truncates_value_at_colon :
    renderConfig "=====> web env vars" 2 [("DATABASE_URL", "postgres://db:5432/web")] =
      "=====> web env vars\nDATABASE_URL:  postgres://db:5432/web" ∧
    readAppConfig "web"
      (fun _ _ => (renderConfig "=====> web env vars" 2
        [("DATABASE_URL", "postgres://db:5432/web")], none)) [] =
      (.done [("DATABASE_URL", "postgres")], ["config:show web"]) ∧
    (readAppConfig "web"
      (fun _ _ => (renderConfig "=====> web env vars" 2
        [("DATABASE_URL", "postgres://db:5432/web")], none)) []).1 ≠
      .done [("DATABASE_URL", "postgres://db:5432/web")] := by
  decide

/-- C2, amended: take as key of a line its text before the first colon, or the whole
line when it has no colon, trimmed. For every `domains:report` output for which the
command succeeds, if the first line after the first whose key is "Domains app vhosts"
contains a colon, the result is the trimmed text between its first and second colon
split on single spaces (an empty non-nil list when that text is empty) and a nil error;
for domain names that are non-empty and contain no white space and no colon, a report
with a header line and the line "Domains app vhosts: d1 ... dn" yields exactly
`[d1, ..., dn]`; if no line after the first has that key the result is (nil, nil).
In each case the only command issued is `domains:report <name>`. Every output is made
of a first line and of lines after it, joined by newlines. -/
theorem readAppDomains_report (appName : String) (client : Client) (issued : List String) :
    (∀ (first : String) (pre : List String) (line : String) (post : List String),
      (∀ l ∈ first :: (pre ++ line :: post), '\n' ∉ l.data) →
      client issued ("domains:report " ++ appName) =
        ("\n".intercalate (first :: (pre ++ line :: post)), none) →
      (∀ l ∈ pre, strings.TrimSpace (beforeColon l) ≠ domainsKey) →
      strings.TrimSpace (beforeColon line) = domainsKey →
      ':' ∈ line.data →
      readAppDomains appName client issued =
        (.done (some (if strings.TrimSpace (betweenColons line) = "" then []
                      else strings.Split (strings.TrimSpace (betweenColons line)) ' '), none),
          issued ++ ["domains:report " ++ appName])) ∧
    (∀ (header : String) (ds : List String),
      '\n' ∉ header.data →
      (∀ d ∈ ds, d ≠ "" ∧ ∀ c ∈ d.data, strings.isSpace c = false ∧ c ≠ ':') →
      client issued ("domains:report " ++ appName) =
        (header ++ "\n" ++ ("Domains app vhosts: " ++ " ".intercalate ds), none) →
      readAppDomains appName client issued =
        (.done (some ds, none), issued ++ ["domains:report " ++ appName])) ∧
    (∀ (first : String) (lines : List String),
      (∀ l ∈ first :: lines, '\n' ∉ l.data) →
      client issued ("domains:report " ++ appName) =
        ("\n".intercalate (first :: lines), none) →
      (∀ l ∈ lines, strings.TrimSpace (beforeColon l) ≠ domainsKey) →
      readAppDomains appName client issued =
        (.done (none, none), issued ++ ["domains:report " ++ appName])) ∧
    (∀ output : String, ∃ (first : String) (lines : List String),
      (∀ l ∈ first :: lines, '\n' ∉ l.data) ∧
      output = "\n".intercalate (first :: lines)) := by
  refine ⟨?_, ?_, ?_, lines_cover⟩
  · intro first pre line post hnl hrun hpre hkey hcolon
    rw [readAppDomains_of_lines appName client issued first _ hnl hrun,
      readAppDomainsLoop_skip pre _ hpre, readAppDomainsLoop_found line post hkey hcolon]
  · intro header ds hheader hds hrun
    have hnl : ∀ l ∈ [header, "Domains app vhosts: " ++ " ".intercalate ds], '\n' ∉ l.data := by
      intro l hl
      simp only [List.mem_cons, List.mem_singleton, List.not_mem_nil, or_false] at hl
      rcases hl with rfl | rfl
      · exact hheader
      · intro hmem
        simp only [String.data_append, List.mem_append] at hmem
        rcases hmem with hmem | hmem
        · exact absurd hmem (by decide)
        · rcases mem_intercalate _ _ _ hmem with h1 | ⟨d, hd, hc⟩
          · exact absurd h1 (by decide)
          · exact absurd ((hds d hd).2 _ hc).1 (by decide)
    have hout : "\n".intercalate [header, "Domains app vhosts: " ++ " ".intercalate ds] =
        header ++ "\n" ++ ("Domains app vhosts: " ++ " ".intercalate ds) := by
      rw [intercalate_cons_cons, intercalate_singleton]
    rw [readAppDomains_of_lines appName client issued header _ hnl (by rw [hout]; exact hrun),
      readAppDomainsLoop_report_line ds hds]
  · intro first lines hnl hrun hnone
    have := readAppDomainsLoop_skip lines [] hnone
    rw [List.append_nil] at this
    rw [readAppDomains_of_lines appName client issued first lines hnl hrun, this]
    rfl

/-- Witness for C2: a report with a header line, another line and the domains line. -/
theorem readAppDomains_report_witness :
    readAppDomains "web"
      (fun _ _ => ("=====> web domains information\nDomains app enabled: true\n" ++
        "Domains app vhosts: a.com b.com\nDomains global enabled: true", none)) [] =
      (.done (some ["a.com", "b.com"], none), ["domains:report web"]) :=
  ((readAppDomains_report "web"
      (fun _ _ => ("=====> web domains information\nDomains app enabled: true\n" ++
        "Domains app vhosts: a.com b.com\nDomains global enabled: true", none)) []).1
    "=====> web domains information" ["Domains app enabled: true"]
    "Domains app vhosts: a.com b.com" ["Domains global enabled: true"]
    (by decide) (by decide) (by decide) (by decide) (by decide)).trans (by decide)

/-- Counterexample to C2 as stated: on a report whose second line is
"Domains app vhosts" without a colon, `readAppDomains` panics (index out of range), so it
returns no result at all, neither a domain list nor (nil, nil), although no line after
the first has a colon. -/
theorem readAppDomains_panics_without_colon :
    (∀ l ∈ (strings.Split "=====> web domains information\nDomains app vhosts" '\n').drop 1,
      ':' ∉ l.data) ∧
    readAppDomains "web"
      (fun _ _ => ("=====> web domains information\nDomains app vhosts", none)) [] =
      (.panic, ["domains:report web"]) ∧
    (readAppDomains "web"
      (fun _ _ => ("=====> web domains information\nDomains app vhosts", none)) []).1 ≠
      .done (none, none) ∧
    (∀ r, (readAppDomains "web"
      (fun _ _ => ("=====> web domains information\nDomains app vhosts", none)) []).1 ≠
      .done r) := by
  refine ⟨by decide, by decide, by decide, ?_⟩
  intro r h
  have hp : (readAppDomains "web"
      (fun _ _ => ("=====> web domains information\nDomains app vhosts", none)) []).1 =
      .panic := by decide
  rw [hp] at h
  cases h

/-- C3: `managedConfigVars` returns the restriction of the app's ConfigVars to the keys
of the resource data's config_vars: a key is in the result iff it is a key of both, the
value of the result at such a key is the app's (remote) value, a key that config_vars
lacks has no value in the result, and the result is a map (no key twice). -/
theorem managedConfigVars_restriction (app : DokkuApp) (d : ResourceData)
    (hmap : app.ConfigVars.keys.Nodup) :
    (∀ k, k ∈ (managedConfigVars app d).keys ↔
      k ∈ app.ConfigVars.keys ∧ k ∈ d.configVarsNew.keys) ∧
    (∀ k, k ∈ (managedConfigVars app d).keys →
      (managedConfigVars app d).get k = app.ConfigVars.get k) ∧
    (∀ k, k ∉ d.configVarsNew.keys → (managedConfigVars app d).get k = none) ∧
    (managedConfigVars app d).keys.Nodup := by
  have hget := managedConfigVars_get app d hmap
  have hiff : ∀ k, k ∈ (managedConfigVars app d).keys ↔
      k ∈ app.ConfigVars.keys ∧ k ∈ d.configVarsNew.keys := by
    intro k
    rw [GoMap.mem_keys_iff, hget k, GoMap.mem_keys_iff app.ConfigVars]
    by_cases hk : k ∈ d.configVarsNew.keys <;> simp [hk]
  refine ⟨hiff, ?_, ?_, ?_⟩
  · intro k hk
    rw [hget k, if_pos ((hiff k).1 hk).2]
  · intro k hk
    rw [hget k, if_neg hk]
  · unfold managedConfigVars
    exact managedFold_nodup _ _ [] (by simp [GoMap.keys])

/-- Witness for C3: the remote app has `A`, `B` and `DOKKU_PROXY_PORT`, the resource
declares `A` (with another value) and `C`; only `A` is kept, with the remote value. -/
theorem managedConfigVars_restriction_witness :
    (GoMap.keys [("A", "1"), ("B", "2"), ("DOKKU_PROXY_PORT", "5000")]).Nodup ∧
    managedConfigVars
      { webApp with ConfigVars := [("A", "1"), ("B", "2"), ("DOKKU_PROXY_PORT", "5000")] }
      { unchangedData with configVarsNew := [("A", "9"), ("C", "3")] } = [("A", "1")] ∧
    (managedConfigVars
      { webApp with ConfigVars := [("A", "1"), ("B", "2"), ("DOKKU_PROXY_PORT", "5000")] }
      { unchangedData with configVarsNew := [("A", "9"), ("C", "3")] }).get
        "DOKKU_PROXY_PORT" = none :=
  ⟨by decide, by decide,
    (managedConfigVars_restriction
      { webApp with ConfigVars := [("A", "1"), ("B", "2"), ("DOKKU_PROXY_PORT", "5000")] }
      { unchangedData with configVarsNew := [("A", "9"), ("C", "3")] } (by decide)).2.2.1
      "DOKKU_PROXY_PORT" (by decide)⟩

/-- C4: when `apps:exists <name>` fails with an error whose text is exactly
"Process exited with status 20", `dokkuAppRetrieve` returns a nil error and an app with
an empty Id, the requested Name, Locked false, no config vars and no domains, and the
only command it issues is `apps:exists <name>`, which is neither a `config:show` nor a
`domains:report` command; when `apps:exists` fails with any other text the result is
no app and that same error. -/
theorem dokkuAppRetrieve_apps_exists_failure (appName : String) (client : Client)
    (issued : List String) (e : GoError)
    (hfail : (client issued ("apps:exists " ++ appName)).2 = some e) :
    (e.Error = "Process exited with status 20" →
      dokkuAppRetrieve appName client issued =
        (.done (some { Id := "", Name := appName, Locked := false, ConfigVars := [],
                       Domains := none }, none),
          issued ++ ["apps:exists " ++ appName])) ∧
    (e.Error ≠ "Process exited with status 20" →
      dokkuAppRetrieve appName client issued =
        (.done (none, some e), issued ++ ["apps:exists " ++ appName])) ∧
    (∀ n : String, "apps:exists " ++ appName ≠ "config:show " ++ n ∧
      "apps:exists " ++ appName ≠ "domains:report " ++ n) := by
  refine ⟨?_, ?_, ?_⟩
  · intro h
    simp [dokkuAppRetrieve, Client.Run, hfail, h]
  · intro h
    simp [dokkuAppRetrieve, Client.Run, hfail, h]
  · intro n
    constructor <;>
    · intro h
      have := congrArg String.data h
      simp [String.data_append] at this

/-- Witness for C4: a client on which every command exits with status 20. -/
theorem dokkuAppRetrieve_apps_exists_failure_witness :
    (failingClient exitStatus20 [] ("apps:exists " ++ "web")).2 = some exitStatus20 ∧
    dokkuAppRetrieve "web" (failingClient exitStatus20) [] =
      (.done (some { Id := "", Name := "web", Locked := false, ConfigVars := [],
                     Domains := none }, none), [] ++ ["apps:exists " ++ "web"]) :=
  ⟨rfl, (dokkuAppRetrieve_apps_exists_failure "web" (failingClient exitStatus20) []
    exitStatus20 rfl).1 (by decide)⟩

/-- C6: `dokkuAppCreate` runs the commands `apps:create <Name>`, then
`config:set <Name> <k=v pairs>` only when ConfigVars is non-empty, then
`domains:set <Name> <Domains joined by single spaces>`, in order and up to and including
the first one that fails; its result is the error of that command, and it is nil iff
every command of the list succeeds. -/
theorem dokkuAppCreate_command_sequence (app : DokkuApp) (client : Client)
    (issued : List String) :
    dokkuAppCreate app client issued = runUntilFailure client issued (createCommands app) ∧
    ((dokkuAppCreate app client issued).1 = none ↔
      ∀ i, i < (createCommands app).length →
        errorAt client issued (createCommands app) i = none) ∧
    ((dokkuAppCreate app client issued).1 = none →
      (dokkuAppCreate app client issued).2 = issued ++ createCommands app) ∧
    (∀ e, (dokkuAppCreate app client issued).1 = some e →
      ∃ i, i < (createCommands app).length ∧
        (dokkuAppCreate app client issued).2 = issued ++ (createCommands app).take (i + 1) ∧
        errorAt client issued (createCommands app) i = some e ∧
        ∀ j, j < i → errorAt client issued (createCommands app) j = none) := by
  have heq := dokkuAppCreate_eq_runUntilFailure app client issued
  refine ⟨heq, ⟨?_, ?_⟩, ?_, ?_⟩
  · intro h
    rw [heq] at h
    exact (runUntilFailure_none client _ issued h).2
  · intro hall
    cases hr : (dokkuAppCreate app client issued).1 with
    | none => rfl
    | some e =>
      rw [heq] at hr
      obtain ⟨i, hi, _, herr, _⟩ := runUntilFailure_some client _ issued e hr
      rw [hall i hi] at herr
      cases herr
  · intro h
    rw [heq] at h ⊢
    exact (runUntilFailure_none client _ issued h).1
  · intro e h
    rw [heq] at h ⊢
    exact runUntilFailure_some client _ issued e h

/-- Witness for C6: creating the sample app on a client that refuses `domains:set`
issues the three commands and returns the error of the last one. -/
theorem dokkuAppCreate_command_sequence_witness :
    createCommands webApp =
      ["apps:create web", "config:set web A=1", "domains:set web a.com b.com"] ∧
    dokkuAppCreate webApp domainsFailingClient [] =
      (some exitStatus1,
        ["apps:create web", "config:set web A=1", "domains:set web a.com b.com"]) :=
  ⟨by decide,
    (dokkuAppCreate_command_sequence webApp domainsFailingClient []).1.trans (by decide)⟩

/-- C7: when none of name, config_vars and domains has a change, `dokkuAppUpdate`
issues no remote command and returns nil. -/
theorem dokkuAppUpdate_unchanged (h : Helpers) (app : DokkuApp) (d : ResourceData)
    (client : Client) (issued : List String)
    (hname : d.HasChange .name = false)
    (hvars : d.HasChange .config_vars = false)
    (hdomains : d.HasChange .domains = false) :
    dokkuAppUpdate h app d client issued = (none, issued) := by
  simp [dokkuAppUpdate, updateName, updateConfigVars, updateDomains, hname, hvars, hdomains]

/-- Witness for C7: the sample resource without change, on a client that would fail
every command. -/
theorem dokkuAppUpdate_unchanged_witness :
    unchangedData.HasChange .name = false ∧
    unchangedData.HasChange .config_vars = false ∧
    unchangedData.HasChange .domains = false ∧
    dokkuAppUpdate specHelpers webApp unchangedData (failingClient exitStatus1) [] =
      (none, []) :=
  ⟨by decide, by decide, by decide,
    dokkuAppUpdate_unchanged specHelpers webApp unchangedData (failingClient exitStatus1) []
      (by decide) (by decide) (by decide)⟩

/-- C9 at a failing input: for the app `web` and the key list `[A]`,
`dokkuAppConfigVarsUnset` issues `config:unset A`, without the name of the app, and not
`config:unset web A`. -/
theorem dokkuAppConfigVarsUnset_omits_app_name :
    dokkuAppConfigVarsUnset webApp ["A"] okClient [] = (none, ["config:unset A"]) ∧
    (dokkuAppConfigVarsUnset webApp ["A"] okClient []).2 ≠
      ["config:unset " ++ webApp.Name ++ " " ++ strings.Join ["A"] " "] := by
  decide

/-- C5 at a failing input: the variable `A` is removed and the client refuses
`config:unset`; `dokkuAppUpdate` drops that error, goes on to issue `config:set`, and
returns nil although a command it issued failed. -/
theorem dokkuAppUpdate_drops_unset_error :
    (unsetFailingClient [] "config:unset A").2 = some exitStatus1 ∧
    dokkuAppUpdate specHelpers webApp removeVarData unsetFailingClient [] =
      (none, ["config:unset A", "config:set web "]) := by
  decide

/-- C8 at a failing input: the variable `A=1` is added to the app `web`;
`dokkuAppUpdate` issues `config:set web  A=1`, with two spaces before the pair, while
`dokkuAppConfigVarsSet` builds `config:set web A=1` for the same name and variables. -/
theorem dokkuAppUpdate_config_set_text :
    dokkuAppUpdate specHelpers webApp addVarData okClient [] =
      (none, ["config:set web  A=1"]) ∧
    dokkuAppConfigVarsSet
      { Id := "", Name := addVarData.nameNew, Locked := false,
        ConfigVars := addVarData.configVarsNew, Domains := none } okClient [] =
      (none, ["config:set web A=1"]) := by
  decide


end Dokku
